import Mathlib

/-!
Verification of the mcp-midi sequencing core.

This file shallowly embeds the Python sources of the repository
(`src/mcp_midi/song/song.py`, `src/mcp_midi/song/manager.py`,
`src/mcp_midi/midi_file.py`, `src/mcp_midi/tracker_parser.py`) into Lean.
Times and durations are modelled as rational numbers, Python ints as `Int`,
and the injected "send capability" (which may raise) as a boolean-valued
function on messages, `false` meaning the call raises.
-/

set_option maxHeartbeats 1000000

/-! ## Event model (`song.py`, dataclasses `Note`/`Chord`/`Rest`/`ProgramChange`/`ControlChange`)

Each dataclass inherits `time`, `duration`, `channel` from `MidiEvent`;
the variant-specific fields follow.  `Rest.__post_init__` clamps `duration`
to be non-negative; that clamp is applied at the construction site
(`Song.add_rest`) below. -/

inductive MidiEvent
  | note (time duration : ℚ) (channel pitch velocity : ℤ)
  | chord (time duration : ℚ) (channel : ℤ) (notes : List ℤ) (velocity : ℤ)
  | rest (time duration : ℚ) (channel : ℤ)
  | programChange (time duration : ℚ) (channel program : ℤ)
  | controlChange (time duration : ℚ) (channel control value : ℤ)
deriving DecidableEq

def MidiEvent.time : MidiEvent → ℚ
  | .note t _ _ _ _ => t
  | .chord t _ _ _ _ => t
  | .rest t _ _ => t
  | .programChange t _ _ _ => t
  | .controlChange t _ _ _ _ => t

def MidiEvent.duration : MidiEvent → ℚ
  | .note _ d _ _ _ => d
  | .chord _ d _ _ _ => d
  | .rest _ d _ => d
  | .programChange _ d _ _ => d
  | .controlChange _ d _ _ _ => d

def MidiEvent.channel : MidiEvent → ℤ
  | .note _ _ c _ _ => c
  | .chord _ _ c _ _ => c
  | .rest _ _ c => c
  | .programChange _ _ c _ => c
  | .controlChange _ _ c _ _ => c

/-! ## The `Song` container (`song.py`, class `Song`)

`_task` and the stored callback are not part of the value model: the send
capability is passed explicitly to `Song.play`.  `_stop_event` is the
boolean `stop_event`, `_is_playing` is `is_playing`. -/

structure Song where
  name : String
  tempo : ℤ
  events : List MidiEvent
  sorted_events : List MidiEvent
  is_sorted : Bool
  duration : ℚ
  is_playing : Bool
  stop_event : Bool
deriving DecidableEq

/-- `Song.__init__`: empty event log, duration 0, not playing. -/
def mkSong (name : String) (tempo : ℤ) : Song :=
  ⟨name, tempo, [], [], false, 0, false, false⟩

/-- `Song.add_event`: append, invalidate the sorted cache, and bump
`duration` when `event.time + event.duration` exceeds it. -/
def Song.add_event (s : Song) (e : MidiEvent) : Song :=
  { s with
    events := s.events ++ [e]
    is_sorted := false
    duration := if e.time + e.duration > s.duration then e.time + e.duration else s.duration }

/-- `Song.add_note`. -/
def Song.add_note (s : Song) (pitch : ℤ) (time duration : ℚ) (velocity channel : ℤ) : Song :=
  s.add_event (.note time duration channel pitch velocity)

/-- `Song.add_chord`. -/
def Song.add_chord (s : Song) (notes : List ℤ) (time duration : ℚ) (velocity channel : ℤ) : Song :=
  s.add_event (.chord time duration channel notes velocity)

/-- `Song.add_rest`; `Rest.__post_init__` replaces the duration by
`max(0.0, duration)`, and the channel is left at its default `0`. -/
def Song.add_rest (s : Song) (time duration : ℚ) : Song :=
  s.add_event (.rest time (max 0 duration) 0)

/-- `Song.add_program_change` (duration stays at the dataclass default `0`). -/
def Song.add_program_change (s : Song) (program : ℤ) (time : ℚ) (channel : ℤ) : Song :=
  s.add_event (.programChange time 0 channel program)

/-- `Song.add_control_change` (duration stays at the dataclass default `0`). -/
def Song.add_control_change (s : Song) (control value : ℤ) (time : ℚ) (channel : ℤ) : Song :=
  s.add_event (.controlChange time 0 channel control value)

/-- The comparison used by `sorted(self.events, key=lambda e: e.time)`. -/
def timeLe (a b : MidiEvent) : Bool := decide (a.time ≤ b.time)

/-- `Song.sort_events`: Python's `sorted` is a stable sort by `time`;
`List.mergeSort` is the stable sort in Lean, so the two agree. -/
def Song.sort_events (s : Song) : Song :=
  { s with sorted_events := s.events.mergeSort timeLe, is_sorted := true }

/-- `Song.clear`. -/
def Song.clear (s : Song) : Song :=
  { s with events := [], sorted_events := [], is_sorted := true, duration := 0 }

/-! ## JSON serialization (`Song.to_json` / `Song.from_json`)

The JSON text is modelled structurally: an `EventJson` holds the keys the
serializer writes (`Option` marks keys that are present only for some
event kinds), and `SongJson` the top-level record. -/

structure EventJson where
  type : String
  time : ℚ
  duration : ℚ
  channel : ℤ
  pitch : Option ℤ
  velocity : Option ℤ
  notes : Option (List ℤ)
  program : Option ℤ
  control : Option ℤ
  value : Option ℤ
deriving DecidableEq

/-- The per-event dictionary built inside `Song.to_json`. -/
def eventToJson : MidiEvent → EventJson
  | .note t d ch p v => ⟨"note", t, d, ch, some p, some v, none, none, none, none⟩
  | .chord t d ch ns v => ⟨"chord", t, d, ch, none, some v, some ns, none, none, none⟩
  | .rest t d ch => ⟨"rest", t, d, ch, none, none, none, none, none, none⟩
  | .programChange t d ch pr => ⟨"program_change", t, d, ch, none, none, none, some pr, none, none⟩
  | .controlChange t d ch c v => ⟨"control_change", t, d, ch, none, none, none, none, some c, some v⟩

structure SongJson where
  name : String
  tempo : ℤ
  duration : ℚ
  events : List EventJson
deriving DecidableEq

/-- `Song.to_json`. -/
def Song.to_json (s : Song) : SongJson :=
  ⟨s.name, s.tempo, s.duration, s.events.map eventToJson⟩

/-- One iteration of the event loop in `Song.from_json`: dispatch on the
`"type"` tag and replay the corresponding `add_*` call, with the same
`.get` defaults as the source; unknown tags are skipped. -/
def applyEventJson (s : Song) (ed : EventJson) : Song :=
  if ed.type = "note" then
    s.add_note (ed.pitch.getD 60) ed.time ed.duration (ed.velocity.getD 64) ed.channel
  else if ed.type = "chord" then
    s.add_chord (ed.notes.getD []) ed.time ed.duration (ed.velocity.getD 64) ed.channel
  else if ed.type = "rest" then
    s.add_rest ed.time ed.duration
  else if ed.type = "program_change" then
    s.add_program_change (ed.program.getD 0) ed.time ed.channel
  else if ed.type = "control_change" then
    s.add_control_change (ed.control.getD 0) (ed.value.getD 0) ed.time ed.channel
  else s

/-- `Song.from_json`. -/
def Song.from_json (j : SongJson) : Song :=
  j.events.foldl applyEventJson (mkSong j.name j.tempo)

/-! ## Songs built from the public `add_*` operations -/

/-- A call to one of the five public append operations of `Song`. -/
inductive SongOp
  | addNote (pitch : ℤ) (time duration : ℚ) (velocity channel : ℤ)
  | addChord (notes : List ℤ) (time duration : ℚ) (velocity channel : ℤ)
  | addRest (time duration : ℚ)
  | addProgramChange (program : ℤ) (time : ℚ) (channel : ℤ)
  | addControlChange (control value : ℤ) (time : ℚ) (channel : ℤ)
deriving DecidableEq

def applyOp (s : Song) : SongOp → Song
  | .addNote p t d v ch => s.add_note p t d v ch
  | .addChord ns t d v ch => s.add_chord ns t d v ch
  | .addRest t d => s.add_rest t d
  | .addProgramChange pr t ch => s.add_program_change pr t ch
  | .addControlChange c v t ch => s.add_control_change c v t ch

def applyOps (s : Song) (ops : List SongOp) : Song := ops.foldl applyOp s

/-- The event a public operation appends. -/
def opEvent : SongOp → MidiEvent
  | .addNote p t d v ch => .note t d ch p v
  | .addChord ns t d v ch => .chord t d ch ns v
  | .addRest t d => .rest t (max 0 d) 0
  | .addProgramChange pr t ch => .programChange t 0 ch pr
  | .addControlChange c v t ch => .controlChange t 0 ch c v

def addEvents (s : Song) (l : List MidiEvent) : Song := l.foldl Song.add_event s

/-! ## Playback (`Song.play`, `Song._schedule_note_off`, `Song.stop_playback`)

The send capability `send_midi_callback(kind, params)` is modelled as a
function `Msg → Bool`; `false` means the call raises.  The asyncio stop
event is modelled as a boolean that is constant for the run (nothing in a
single sequential run of `play` sets it), and the wall-clock time elapsed
at the end of the walk (`time.time() - start_time`) is an explicit
parameter `elapsed`. -/

inductive Msg
  | note_on (note velocity channel : ℤ)
  | note_off (note channel : ℤ)
  | program_change (program channel : ℤ)
  | control_change (control value channel : ℤ)
deriving DecidableEq

/-- Python dict assignment `active_notes[(pitch, channel)] = stop_time`:
update in place when the key exists, append otherwise. -/
def dictInsert (d : List ((ℤ × ℤ) × ℚ)) (k : ℤ × ℤ) (v : ℚ) : List ((ℤ × ℤ) × ℚ) :=
  match d with
  | [] => [(k, v)]
  | (k', v') :: rest => if k' = k then (k, v) :: rest else (k', v') :: dictInsert rest k v

/-- The inner `for pitch in chord.notes` loop of the CHORD branch of
`Song.play`: a `note_on` per pitch, each recorded in `active_notes`.
Returns the message trace so far, the updated `active_notes`, and whether
a send raised (aborting the loop). -/
def sendChordNotes (cb : Msg → Bool) (velocity channel : ℤ) (endTime : ℚ) :
    List ℤ → List ((ℤ × ℤ) × ℚ) → List Msg → List Msg × List ((ℤ × ℤ) × ℚ) × Bool
  | [], active, trace => (trace, active, false)
  | p :: rest, active, trace =>
    if cb (.note_on p velocity channel) then
      sendChordNotes cb velocity channel endTime rest
        (dictInsert active (p, channel) endTime) (trace ++ [.note_on p velocity channel])
    else (trace ++ [.note_on p velocity channel], active, true)

/-- Dispatch of a single event inside the walk of `Song.play` (the
`if/elif` chain on `event.event_type`; REST has no branch and emits
nothing). -/
def dispatchEvent (cb : Msg → Bool) (e : MidiEvent) (active : List ((ℤ × ℤ) × ℚ))
    (trace : List Msg) : List Msg × List ((ℤ × ℤ) × ℚ) × Bool :=
  match e with
  | .note t d ch p v =>
    if cb (.note_on p v ch) then
      (trace ++ [.note_on p v ch], dictInsert active (p, ch) (t + d), false)
    else (trace ++ [.note_on p v ch], active, true)
  | .chord t d ch ns v => sendChordNotes cb v ch (t + d) ns active trace
  | .rest _ _ _ => (trace, active, false)
  | .programChange _ _ ch pr =>
    if cb (.program_change pr ch) then (trace ++ [.program_change pr ch], active, false)
    else (trace ++ [.program_change pr ch], active, true)
  | .controlChange _ _ ch c v =>
    if cb (.control_change c v ch) then (trace ++ [.control_change c v ch], active, false)
    else (trace ++ [.control_change c v ch], active, true)

/-- The event walk of `Song.play`: wait (break immediately when the stop
signal is set and the wait is positive), dispatch, then break if the stop
signal is set.  A raised send aborts the walk with the error flag set. -/
def playLoop (cb : Msg → Bool) (stop : Bool) :
    List MidiEvent → ℚ → List ((ℤ × ℤ) × ℚ) → List Msg →
      List Msg × List ((ℤ × ℤ) × ℚ) × Bool
  | [], _, active, trace => (trace, active, false)
  | e :: rest, lastTime, active, trace =>
    if e.time - lastTime > 0 ∧ stop = true then (trace, active, false)
    else
      let r := dispatchEvent cb e active trace
      if r.2.2 then (r.1, r.2.1, true)
      else if stop then (r.1, r.2.1, false)
      else playLoop cb stop rest e.time r.2.1 r.1

/-- The cleanup pass at the end of `Song.play`: one `note_off` per entry of
`active_notes` whose scheduled stop time is still in the future. -/
def cleanupLoop (cb : Msg → Bool) (elapsed : ℚ) :
    List ((ℤ × ℤ) × ℚ) → List Msg → List Msg × Bool
  | [], trace => (trace, false)
  | ((p, ch), stopTime) :: rest, trace =>
    if stopTime > elapsed then
      if cb (.note_off p ch) then cleanupLoop cb elapsed rest (trace ++ [.note_off p ch])
      else (trace ++ [.note_off p ch], true)
    else cleanupLoop cb elapsed rest trace

/-- Observable outcome of one call to `Song.play`: the messages passed to
the send capability in order, the final `_is_playing` flag, and whether an
exception from the capability propagated out of `play`. -/
structure PlayResult where
  trace : List Msg
  is_playing : Bool
  errored : Bool
deriving DecidableEq

/-- The event sequence the walk uses: `play` sorts first when the cache is
stale. -/
def Song.playEvents (s : Song) : List MidiEvent :=
  if s.is_sorted then s.sorted_events else s.events.mergeSort timeLe

/-- `Song.play`.  Early returns: already playing, or no callback bound.
Otherwise walk the sorted events; an exception from the send capability
propagates immediately (there is no try/finally in the source), skipping
the cleanup pass and the `_is_playing = False` reset. -/
def Song.play (s : Song) (cb? : Option (Msg → Bool)) (stop : Bool) (elapsed : ℚ) : PlayResult :=
  if s.is_playing then ⟨[], true, false⟩
  else
    match cb? with
    | none => ⟨[], false, false⟩
    | some cb =>
      let r := playLoop cb stop s.playEvents 0 [] []
      if r.2.2 then ⟨r.1, true, true⟩
      else
        let c := cleanupLoop cb elapsed r.2.1 r.1
        if c.2 then ⟨c.1, true, true⟩
        else ⟨c.1, false, false⟩

/-- `Song._schedule_note_off`, reduced to the messages it emits: after the
duration wait (or its interruption by the stop signal, given as the
boolean `stop`), the `note_off` is sent iff the stop signal is not set or
the duration is `≤ 0`. -/
def schedule_note_off (stop : Bool) (pitch channel : ℤ) (duration : ℚ) : List Msg :=
  if ¬ stop = true ∨ duration ≤ 0 then [.note_off pitch channel] else []

/-- Result tag for `Song.stop_playback`: which branch ran (the source
reports "Song is not playing" in the early-return branch). -/
inductive StopOutcome
  | not_playing
  | stopping
deriving DecidableEq

/-- `Song.stop_playback`: early return when nothing is playing, otherwise
set the stop event.  It performs no sends in either branch.  Returns the
resulting song state, the branch taken, and the (empty) list of sends. -/
def Song.stop_playback (s : Song) : Song × StopOutcome × List Msg :=
  if ¬ s.is_playing = true then (s, .not_playing, [])
  else ({ s with stop_event := true }, .stopping, [])

/-! ## `SongManager.add_song` (`manager.py`)

The manager's `self.songs` dict is modelled as an insertion-ordered
association list; Python dict insertion of a fresh key appends. -/

/-- The f-string `f"{name}_{i}"`. -/
def suffixed (name : String) (i : ℕ) : String := name ++ "_" ++ Nat.repr i

/-- The `while f"{song.name}_{i}" in self.songs: i += 1` loop, with
explicit fuel (the loop terminates because the dict is finite; fuel
`keys.length + 1` is enough, proved below). -/
def freshIndexAux (keys : List String) (name : String) : ℕ → ℕ → ℕ
  | 0, i => i
  | fuel + 1, i => if suffixed name i ∈ keys then freshIndexAux keys name fuel (i + 1) else i

def freshIndex (keys : List String) (name : String) : ℕ :=
  freshIndexAux keys name (keys.length + 1) 1

structure SongManager where
  songs : List (String × Song)

def SongManager.keys (m : SongManager) : List String := m.songs.map Prod.fst

/-- `SongManager.add_song`: on a name collision, rename to `name_i` for the
first unused `i ≥ 1`; then store the song under its (possibly new) name. -/
def SongManager.add_song (m : SongManager) (s : Song) : SongManager :=
  if s.name ∈ m.keys then
    let newName := suffixed s.name (freshIndex m.keys s.name)
    ⟨m.songs ++ [(newName, { s with name := newName })]⟩
  else ⟨m.songs ++ [(s.name, s)]⟩

/-! ## MIDI file importer (`midi_file.py`, `MidiFilePlayer.convert_to_song`)

A decoded track message carries a delta time in ticks and the
type-specific fields mido exposes. -/

inductive TrackMsg
  | note_on (delta : ℕ) (note velocity channel : ℤ)
  | note_off (delta : ℕ) (note channel : ℤ)
  | program_change (delta : ℕ) (program channel : ℤ)
  | control_change (delta : ℕ) (control value channel : ℤ)
  | set_tempo (delta : ℕ) (tempo : ℤ)
  | meta_other (delta : ℕ)
deriving DecidableEq

def TrackMsg.delta : TrackMsg → ℕ
  | .note_on d _ _ _ => d
  | .note_off d _ _ => d
  | .program_change d _ _ => d
  | .control_change d _ _ _ => d
  | .set_tempo d _ => d
  | .meta_other d => d

/-- `mido.tick2second(tick, ticks_per_beat, tempo=500000)`:
`tick * (tempo / 1e6) / ticks_per_beat` with the fixed 500000 µs/beat
reference tempo. -/
def tick2second (tick : ℕ) (ticks_per_beat : ℕ) : ℚ :=
  (tick : ℚ) * ((500000 : ℚ) / 1000000) / (ticks_per_beat : ℚ)

/-- The matching test of the note-off branch: the event must be a `Note`
(the only event kind carrying a `pitch` attribute) with the message's
pitch and channel whose current end time is later than
`absolute_time - 0.001`. -/
def isPitchMatch (note channel : ℤ) (absTime : ℚ) (e : MidiEvent) : Bool :=
  match e with
  | .note t d ch p _ => p = note ∧ ch = channel ∧ t + d > absTime - 1 / 1000
  | _ => false

/-- The `for event in song.events: ... break` scan of the note-off branch:
rewrite the duration of the first matching event to `absolute_time -
event.time`, leaving everything else unchanged. -/
def closeNote (note channel : ℤ) (absTime : ℚ) : List MidiEvent → List MidiEvent
  | [] => []
  | e :: rest =>
    if isPitchMatch note channel absTime e then
      (match e with
       | .note t _ ch p v => MidiEvent.note t (absTime - t) ch p v
       | e' => e') :: rest
    else e :: closeNote note channel absTime rest

/-- The per-track message loop of `convert_to_song`: advance
`absolute_time` for a positive delta, then dispatch on the message type
(`note_on` with velocity 0 is treated as `note_off`; `set_tempo` is
explicitly ignored). -/
def convertTrack (tpb : ℕ) : List TrackMsg → ℚ → Song → Song
  | [], _, song => song
  | msg :: rest, absTime, song =>
    let absTime' := if msg.delta > 0 then absTime + tick2second msg.delta tpb else absTime
    let song' :=
      match msg with
      | .note_on _ note velocity channel =>
        if velocity > 0 then song.add_note note absTime' (1 / 10) velocity channel
        else { song with events := closeNote note channel absTime' song.events }
      | .note_off _ note channel =>
        { song with events := closeNote note channel absTime' song.events }
      | .program_change _ program channel => song.add_program_change program absTime' channel
      | .control_change _ control value channel =>
        song.add_control_change control value absTime' channel
      | .set_tempo _ _ => song
      | .meta_other _ => song
    convertTrack tpb rest absTime' song'

/-- `MidiFilePlayer.convert_to_song`: fold over the tracks (absolute time
restarts at 0 per track), recompute `duration` as the maximum of
`event.time + event.duration` (Python's `max` on an empty list raises, the
surrounding `try` turns that into `None`), then sort. -/
def convert_to_song (tracks : List (List TrackMsg)) (tpb : ℕ) (name : String) : Option Song :=
  let song := tracks.foldl (fun sg track => convertTrack tpb track 0 sg) (mkSong name 120)
  match song.events.map (fun e => e.time + e.duration) with
  | [] => none
  | x :: xs => some ({ song with duration := xs.foldl max x }.sort_events)

/-! ## Tracker parser (`tracker_parser.py`)

String helpers mirror the Python builtins used by the source:
`str.strip`, `str.split()` (split on whitespace runs, dropping empties)
and `int(...)` (sign and decimal digits; the rarely-used underscore
grouping of Python's `int` is not modelled). -/

def trimChars (cs : List Char) : List Char :=
  ((cs.dropWhile Char.isWhitespace).reverse.dropWhile Char.isWhitespace).reverse

def pyStrip (s : String) : String := String.mk (trimChars s.toList)

def splitWsAux : List Char → List Char → List (List Char)
  | [], cur => if cur = [] then [] else [cur.reverse]
  | c :: rest, cur =>
    if c.isWhitespace then
      if cur = [] then splitWsAux rest [] else cur.reverse :: splitWsAux rest []
    else splitWsAux rest (c :: cur)

def pySplit (s : String) : List String := (splitWsAux s.toList []).map String.mk

def digitsVal (cs : List Char) : Option ℤ :=
  match cs with
  | [] => none
  | _ =>
    cs.foldl
      (fun acc c =>
        match acc with
        | none => none
        | some v => if c.isDigit then some (10 * v + ((c.toNat : ℤ) - 48)) else none)
      (some 0)

def pyInt (s : String) : Option ℤ :=
  match (pyStrip s).toList with
  | [] => none
  | '+' :: rest => digitsVal rest
  | '-' :: rest => (digitsVal rest).map (fun v => -v)
  | cs => digitsVal cs

/-- `re.match(r'([A-G][#b]?)[\-_]?(\d+)', s)`: anchored at the start,
greedy (the three character classes are disjoint, so greedy matching needs
no backtracking); trailing characters are allowed.  Returns the captured
note name and octave digits. -/
def matchNotePattern (s : String) : Option (String × String) :=
  match s.toList with
  | [] => none
  | c :: rest =>
    if 'A' ≤ c ∧ c ≤ 'G' then
      let acc : Option Char × List Char :=
        match rest with
        | a :: r2 => if a = '#' ∨ a = 'b' then (some a, r2) else (none, rest)
        | [] => (none, [])
      let rest3 : List Char :=
        match acc.2 with
        | sep :: r3 => if sep = '-' ∨ sep = '_' then r3 else acc.2
        | [] => []
      let ds := rest3.takeWhile Char.isDigit
      if ds = [] then none
      else
        some (String.mk (c :: (match acc.1 with | some a => [a] | none => [])), String.mk ds)
    else none

/-- The `note_values` name→semitone table. -/
def note_values (s : String) : Option ℤ :=
  if s = "C" then some 0
  else if s = "C#" then some 1
  else if s = "Db" then some 1
  else if s = "D" then some 2
  else if s = "D#" then some 3
  else if s = "Eb" then some 3
  else if s = "E" then some 4
  else if s = "F" then some 5
  else if s = "F#" then some 6
  else if s = "Gb" then some 6
  else if s = "G" then some 7
  else if s = "G#" then some 8
  else if s = "Ab" then some 8
  else if s = "A" then some 9
  else if s = "A#" then some 10
  else if s = "Bb" then some 10
  else if s = "B" then some 11
  else none

/-- `parse_note(note_str)` -> `(midi_note, instrument, volume)`. -/
def parse_note (note_str : String) : Option ℤ × Option ℤ × Option ℤ :=
  if note_str = "" ∨ pyStrip note_str = "....." ∨ pyStrip note_str = "---" then (none, none, none)
  else
    let parts := pySplit (pyStrip note_str)
    let midi_note : Option ℤ :=
      match parts with
      | p0 :: _ =>
        if p0 = "..." ∨ p0 = "---" then none
        else
          match matchNotePattern p0 with
          | some (noteName, octaveStr) =>
            match note_values noteName with
            | some v =>
              match digitsVal octaveStr.toList with
              | some oct => some ((oct + 1) * 12 + v)
              | none => none
            | none => none
          | none => none
      | [] => none
    let instrument : Option ℤ :=
      match parts with
      | _ :: p1 :: _ => if p1 = ".." ∨ p1 = "--" then none else pyInt p1
      | _ => none
    let volume : Option ℤ :=
      match parts with
      | _ :: _ :: p2 :: _ => if p2 = ".." ∨ p2 = "--" then none else pyInt p2
      | _ => none
    (midi_note, instrument, volume)

/-- One note record of `parse_tracker_content`'s `notes` list. -/
structure TrackerNote where
  row : ℤ
  channel : ℤ
  note : ℤ
  instrument : Option ℤ
  volume : Option ℤ
deriving DecidableEq

/-- Processing of one grid cell in `parse_tracker_content` (lines 135-145):
skip empty/placeholder cells, parse, and record the note with volume
defaulted to 64 when absent. -/
def cellToNote (row channel : ℤ) (cell : String) : Option TrackerNote :=
  if cell ≠ "" ∧ pyStrip cell ≠ "....." then
    match parse_note cell with
    | (some midi_note, instrument, volume) =>
      some ⟨row, channel, midi_note, instrument, some (volume.getD 64)⟩
    | _ => none
  else none

/-- An instrument value in the parsed tracker data (`Union[int, str]`). -/
inductive InstrVal
  | int (n : ℤ)
  | str (s : String)
deriving DecidableEq

/-- `re.search(r'(\d+)', s)`: the leftmost maximal digit run. -/
def firstDigitRun (s : String) : Option ℤ :=
  match (s.toList.dropWhile (fun c => ¬ c.isDigit)).takeWhile Char.isDigit with
  | [] => none
  | ds => digitsVal ds

/-- The program number chosen for an instrument entry in
`tracker_to_midi_commands`: the channel by default, overridden by an
integer instrument or the first digit run of a string instrument. -/
def instrProgram (channel : ℤ) (iv : InstrVal) : ℤ :=
  match iv with
  | .int n => n
  | .str s => match firstDigitRun s with | some n => n | none => channel

structure TrackerData where
  tempo : ℤ
  speed : ℤ
  instruments : List (ℤ × InstrVal)
  notes : List TrackerNote
deriving DecidableEq

inductive TrackerCmd
  | program_change (program : ℤ) (time : ℚ) (channel : ℤ)
  | note (pitch : ℤ) (time duration : ℚ) (velocity channel : ℤ)
deriving DecidableEq

/-- The `sorted(notes, key=lambda n: (n["row"], n["channel"]))` comparison. -/
def rowChannelLe (a b : TrackerNote) : Bool :=
  decide (a.row < b.row ∨ (a.row = b.row ∧ a.channel ≤ b.channel))

/-- `tracker_to_midi_commands`. -/
def tracker_to_midi_commands (td : TrackerData) : List TrackerCmd :=
  let seconds_per_beat : ℚ := 60 / (td.tempo : ℚ)
  let seconds_per_row : ℚ := seconds_per_beat / (td.speed : ℚ)
  let notes := td.notes.mergeSort rowChannelLe
  let progCmds := td.instruments.map (fun pc => TrackerCmd.program_change (instrProgram pc.1 pc.2) 0 pc.1)
  let noteCmds := notes.map (fun n =>
    TrackerCmd.note n.note ((n.row : ℚ) * seconds_per_row) seconds_per_row
      (match n.volume with | some v => min 127 (v * 2) | none => 64) n.channel)
  progCmds ++ noteCmds

/-! ## Theorems -/

/-- **C1** (code_bug evidence).  Importing the decoded two-message track
`[note_on(pitch=60, velocity=64, delta=0), note_off(pitch=60, delta=480)]`
at 480 ticks-per-beat yields exactly one Note with pitch 60 and time 0.0,
but its duration is the untouched placeholder 0.1 s, not the 0.5 s the
claim states: the pairing test `event.time + event.duration >
absolute_time - 0.001` (i.e. `0.1 > 0.499`) rejects the open note, so the
`note_off` never rewrites the duration, contradicting the source's own
comment that the placeholder "will be updated when note_off is found". -/
theorem c1_midi_import_placeholder_duration :
    convert_to_song [[TrackMsg.note_on 0 60 64 0, TrackMsg.note_off 480 60 0]] 480 "t" =
      some ⟨"t", 120, [.note 0 (1 / 10) 0 60 64], [.note 0 (1 / 10) 0 60 64], true,
        1 / 10, false, false⟩ ∧
    (1 : ℚ) / 10 ≠ 1 / 2 := by
  constructor
  · norm_num [convert_to_song, convertTrack, tick2second, TrackMsg.delta, mkSong,
      Song.add_note, Song.add_event, closeNote, isPitchMatch, Song.sort_events,
      MidiEvent.time, MidiEvent.duration]
  · norm_num

/-- **C6** (confirmed).  With header values `TEMPO: 120`, `SPEED: 4`, the
row-0 cell `C-4 00 64` of the single channel parses to midi note
`(4+1)*12 + 0 = 60`, instrument 0, volume 64, and compiling the resulting
tracker data yields exactly one note command with pitch 60, time 0.0,
duration `(60/120)/4 = 0.125` s and velocity `min(127, 64*2) = 127`. -/
theorem c6_tracker_compile_concrete :
    parse_note "C-4 00 64" = (some 60, some 0, some 64) ∧
    cellToNote 0 0 "C-4 00 64" = some ⟨0, 0, 60, some 0, some 64⟩ ∧
    tracker_to_midi_commands ⟨120, 4, [], [⟨0, 0, 60, some 0, some 64⟩]⟩ =
      [TrackerCmd.note 60 0 (1 / 8) 127 0] := by
  refine ⟨rfl, rfl, ?_⟩
  norm_num [tracker_to_midi_commands]

/-- **C7** (confirmed).  For every pitch and channel, the note-off
guarantor invoked with duration exactly 0 emits exactly one `note_off`
for that (pitch, channel) pair, whether or not the stop signal is set:
the `duration <= 0` disjunct of the final guard fires either way. -/
theorem c7_zero_duration_note_off (stop : Bool) (pitch channel : ℤ) :
    schedule_note_off stop pitch channel 0 = [Msg.note_off pitch channel] ∧
    (schedule_note_off stop pitch channel 0).count (Msg.note_off pitch channel) = 1 := by
  have h : schedule_note_off stop pitch channel 0 = [Msg.note_off pitch channel] := by
    simp [schedule_note_off]
  exact ⟨h, by rw [h]; simp⟩

/-- **C8** (confirmed).  Calling `stop_playback` on a song that is not
playing takes the early-return branch: it reports "not playing", sends
nothing, and returns the song state completely unchanged (in particular
the stop signal is not set). -/
theorem c8_stop_playback_idle_noop (s : Song) (h : s.is_playing = false) :
    s.stop_playback = (s, StopOutcome.not_playing, []) := by
  simp [Song.stop_playback, h]

/-- Witness for `c8_stop_playback_idle_noop` at a concrete idle song. -/
theorem c8_stop_playback_idle_noop_witness :
    (mkSong "w" 120).stop_playback = (mkSong "w" 120, StopOutcome.not_playing, []) :=
  c8_stop_playback_idle_noop (mkSong "w" 120) rfl

/-- **C2** (counterexample).  A song holding one note (pitch 60, duration
5 s) played against a send capability that raises on the first call: the
exception propagates out of `play`, the trace contains the attempted
`note_on` but no `note_off` whatsoever (the all-notes-off cleanup pass
never runs), and the song is left marked as playing, so it cannot be
replayed — contradicting the claim that the cleanup runs on every exit
path and that the song returns to Idle after a runtime failure. -/
theorem c2_counterexample_send_failure_skips_cleanup :
    ((mkSong "s" 120).add_note 60 0 5 64 0).play (some (fun _ => false)) false 0 =
      ⟨[Msg.note_on 60 64 0], true, true⟩ ∧
    Msg.note_off 60 0 ∉ [Msg.note_on 60 64 0] := by
  constructor
  · norm_num [Song.play, Song.playEvents, playLoop, dispatchEvent, mkSong, Song.add_note,
      Song.add_event, MidiEvent.time, MidiEvent.duration]
  · decide

/-! ### Sorting lemmas (C4) -/

theorem timeLe_trans (a b c : MidiEvent) (h1 : timeLe a b) (h2 : timeLe b c) : timeLe a c := by
  simp only [timeLe, decide_eq_true_eq] at *
  exact le_trans h1 h2

theorem timeLe_total (a b : MidiEvent) : timeLe a b || timeLe b a := by
  simp only [timeLe]
  rcases le_total a.time b.time with h | h <;> simp [h]

/-- Stability of the sort, in filter form: the sorted view restricted to
any fixed time value is exactly the append log restricted to that value. -/
theorem mergeSort_filter_time (l : List MidiEvent) (t : ℚ) :
    (l.mergeSort timeLe).filter (fun e => decide (e.time = t)) =
      l.filter (fun e => decide (e.time = t)) := by
  set p : MidiEvent → Bool := fun e => decide (e.time = t) with hp
  have hpw : (l.filter p).Pairwise (fun a b => timeLe a b = true) := by
    apply List.pairwise_of_forall_mem_list
    intro a ha b hb
    have ha' : a.time = t := by
      have := (List.mem_filter.mp ha).2
      simpa [hp] using this
    have hb' : b.time = t := by
      have := (List.mem_filter.mp hb).2
      simpa [hp] using this
    simp [timeLe, ha', hb']
  have hsub : List.Sublist (l.filter p) (l.mergeSort timeLe) :=
    List.sublist_mergeSort timeLe_trans timeLe_total hpw (List.filter_sublist l)
  have h2 : List.Sublist ((l.filter p).filter p) ((l.mergeSort timeLe).filter p) :=
    hsub.filter p
  rw [List.filter_filter] at h2
  have h2' : List.Sublist (l.filter p) ((l.mergeSort timeLe).filter p) := by
    simpa using h2
  have hperm : List.Perm ((l.mergeSort timeLe).filter p) (l.filter p) :=
    (List.mergeSort_perm l timeLe).filter p
  exact ((h2'.eq_of_length hperm.length_eq.symm)).symm

/-- **C4** (confirmed).  `sort_events` produces the sorted view ordered by
time ascending; for any time value the events at that time appear in
insertion order (filter form of the stable tie-break by insertion order);
the sorted view is a permutation of the append log (no event content is
created, dropped or mutated); and the underlying append log itself is not
reordered. -/
theorem c4_sort_stable_and_pure (s : Song) :
    (s.sort_events).sorted_events.Pairwise (fun a b => a.time ≤ b.time) ∧
    (∀ t : ℚ, (s.sort_events).sorted_events.filter (fun e => decide (e.time = t)) =
      s.events.filter (fun e => decide (e.time = t))) ∧
    List.Perm (s.sort_events).sorted_events s.events ∧
    (s.sort_events).events = s.events := by
  refine ⟨?_, ?_, ?_, rfl⟩
  · have h := List.sorted_mergeSort timeLe_trans timeLe_total s.events
    exact h.imp (fun hab => by simpa [timeLe] using hab)
  · intro t
    exact mergeSort_filter_time s.events t
  · exact List.mergeSort_perm s.events timeLe

/-! ### Duration and event-log bookkeeping (shared by C3, C5, C10) -/

theorem add_event_duration (s : Song) (e : MidiEvent) :
    (s.add_event e).duration = max s.duration (e.time + e.duration) := by
  simp only [Song.add_event]
  rcases le_or_lt (e.time + e.duration) s.duration with h | h
  · simp [not_lt.mpr h, max_eq_left h]
  · simp [h, max_eq_right (le_of_lt h)]

theorem addEvents_events (l : List MidiEvent) :
    ∀ s : Song, (addEvents s l).events = s.events ++ l := by
  induction l with
  | nil => intro s; simp [addEvents]
  | cons e rest ih =>
    intro s
    simp only [addEvents, List.foldl_cons]
    rw [show List.foldl Song.add_event (s.add_event e) rest = addEvents (s.add_event e) rest
        from rfl, ih (s.add_event e)]
    simp [Song.add_event]

theorem addEvents_name (l : List MidiEvent) : ∀ s : Song, (addEvents s l).name = s.name := by
  induction l with
  | nil => intro s; simp [addEvents]
  | cons e rest ih =>
    intro s
    simp only [addEvents, List.foldl_cons]
    exact ih (s.add_event e)

theorem addEvents_tempo (l : List MidiEvent) : ∀ s : Song, (addEvents s l).tempo = s.tempo := by
  induction l with
  | nil => intro s; simp [addEvents]
  | cons e rest ih =>
    intro s
    simp only [addEvents, List.foldl_cons]
    exact ih (s.add_event e)

theorem addEvents_duration (l : List MidiEvent) :
    ∀ s : Song, (addEvents s l).duration =
      l.foldl (fun d e => max d (e.time + e.duration)) s.duration := by
  induction l with
  | nil => intro s; simp [addEvents]
  | cons e rest ih =>
    intro s
    simp only [addEvents, List.foldl_cons]
    rw [show List.foldl Song.add_event (s.add_event e) rest = addEvents (s.add_event e) rest
        from rfl, ih (s.add_event e), add_event_duration]

theorem applyOp_eq_add_event (s : Song) (op : SongOp) :
    applyOp s op = s.add_event (opEvent op) := by
  cases op <;> rfl

theorem applyOps_eq_addEvents (s : Song) (ops : List SongOp) :
    applyOps s ops = addEvents s (ops.map opEvent) := by
  induction ops generalizing s with
  | nil => rfl
  | cons op rest ih =>
    simp only [applyOps, List.foldl_cons, List.map_cons, addEvents]
    rw [applyOp_eq_add_event]
    exact ih (s.add_event (opEvent op))

theorem foldl_max_init_le (f : MidiEvent → ℚ) (l : List MidiEvent) :
    ∀ a : ℚ, a ≤ l.foldl (fun d e => max d (f e)) a := by
  induction l with
  | nil => intro a; simp
  | cons e rest ih =>
    intro a
    simp only [List.foldl_cons]
    exact le_trans (le_max_left a (f e)) (ih (max a (f e)))

theorem foldl_max_mem_le (f : MidiEvent → ℚ) (l : List MidiEvent) :
    ∀ (a : ℚ) (x : MidiEvent), x ∈ l → f x ≤ l.foldl (fun d e => max d (f e)) a := by
  induction l with
  | nil => intro a x hx; simp at hx
  | cons e rest ih =>
    intro a x hx
    rcases List.mem_cons.mp hx with h | h
    · subst h
      simp only [List.foldl_cons]
      exact le_trans (le_max_right a (f x)) (foldl_max_init_le f rest _)
    · exact ih (max a (f e)) x h

theorem foldl_max_cases (f : MidiEvent → ℚ) (l : List MidiEvent) :
    ∀ a : ℚ, l.foldl (fun d e => max d (f e)) a = a ∨
      ∃ x ∈ l, l.foldl (fun d e => max d (f e)) a = f x := by
  induction l with
  | nil => intro a; left; rfl
  | cons e rest ih =>
    intro a
    simp only [List.foldl_cons]
    rcases ih (max a (f e)) with h | ⟨x, hx, h⟩
    · rcases le_or_lt (f e) a with hle | hlt
      · left; rw [h, max_eq_left hle]
      · right
        exact ⟨e, List.mem_cons_self e rest, by rw [h, max_eq_right (le_of_lt hlt)]⟩
    · right
      exact ⟨x, List.mem_cons_of_mem e hx, h⟩

/-- **C5** (confirmed).  Appending any event through `add_event` never
decreases `duration`; an empty song has duration 0; and for a song built
from the public operations whose events all have non-negative time and
duration, `duration` is the maximum of `event.time + event.duration` over
the appended events (it bounds every event's end, and is attained by one
of them when any event exists). -/
theorem c5_duration_invariant (s : Song) (e : MidiEvent) (n : String) (tp : ℤ)
    (ops : List SongOp) :
    s.duration ≤ (s.add_event e).duration ∧
    (mkSong n tp).duration = 0 ∧
    ((∀ e' ∈ (applyOps (mkSong n tp) ops).events, 0 ≤ e'.time ∧ 0 ≤ e'.duration) →
      (∀ e' ∈ (applyOps (mkSong n tp) ops).events,
          e'.time + e'.duration ≤ (applyOps (mkSong n tp) ops).duration) ∧
      ((applyOps (mkSong n tp) ops).events ≠ [] →
        ∃ e' ∈ (applyOps (mkSong n tp) ops).events,
          (applyOps (mkSong n tp) ops).duration = e'.time + e'.duration)) := by
  refine ⟨?_, rfl, ?_⟩
  · rw [add_event_duration]
    exact le_max_left _ _
  · intro hnn
    have hev : (applyOps (mkSong n tp) ops).events = ops.map opEvent := by
      rw [applyOps_eq_addEvents, addEvents_events]; rfl
    have hdur : (applyOps (mkSong n tp) ops).duration =
        (ops.map opEvent).foldl (fun d e => max d (e.time + e.duration)) 0 := by
      rw [applyOps_eq_addEvents, addEvents_duration]; rfl
    constructor
    · intro e' he'
      rw [hdur]
      exact foldl_max_mem_le (fun e'' => e''.time + e''.duration) (ops.map opEvent) 0 e'
        (by rwa [hev] at he')
    · intro hne
      rw [hev] at hne
      rcases foldl_max_cases (fun e'' => e''.time + e''.duration) (ops.map opEvent) 0
        with h | ⟨x, hx, h⟩
      · rcases List.exists_mem_of_ne_nil _ hne with ⟨x, hx⟩
        refine ⟨x, by rwa [hev], ?_⟩
        have hxnn := hnn x (by rwa [hev])
        have hle : x.time + x.duration ≤ (0 : ℚ) := by
          have hb := foldl_max_mem_le (fun e'' => e''.time + e''.duration)
            (ops.map opEvent) 0 x hx
          rw [h] at hb
          exact hb
        have hge : (0 : ℚ) ≤ x.time + x.duration := add_nonneg hxnn.1 hxnn.2
        rw [hdur, h]
        linarith
      · exact ⟨x, by rwa [hev], by rw [hdur, h]⟩

/-- Witness for `c5_duration_invariant` at a one-note song. -/
theorem c5_duration_invariant_witness :
    ∀ e' ∈ (applyOps (mkSong "w" 120) [SongOp.addNote 60 0 (1 / 2) 64 0]).events,
      e'.time + e'.duration ≤ (applyOps (mkSong "w" 120) [SongOp.addNote 60 0 (1 / 2) 64 0]).duration :=
  ((c5_duration_invariant (mkSong "w" 120) (.note 0 1 0 60 64) "w" 120
    [SongOp.addNote 60 0 (1 / 2) 64 0]).2.2 (by
      intro e' he'
      simp only [applyOps, applyOp, Song.add_note, Song.add_event, mkSong, List.foldl_cons,
        List.foldl_nil, List.nil_append, List.mem_singleton] at he'
      subst he'
      refine ⟨le_refl 0, ?_⟩
      norm_num [MidiEvent.time, MidiEvent.duration])).1

/-! ### Round-trip machinery (C3) and rest clamping (C10) -/

/-- Shape invariant of events appended by the public operations: rests
are clamped non-negative with the default channel, and program/control
changes keep the dataclass default duration 0. -/
def OpBuilt : MidiEvent → Prop
  | .note _ _ _ _ _ => True
  | .chord _ _ _ _ _ => True
  | .rest _ d ch => 0 ≤ d ∧ ch = 0
  | .programChange _ d _ _ => d = 0
  | .controlChange _ d _ _ _ => d = 0

theorem opEvent_opBuilt (op : SongOp) : OpBuilt (opEvent op) := by
  cases op with
  | addRest t d => exact ⟨le_max_left 0 d, rfl⟩
  | addNote p t d v ch => trivial
  | addChord ns t d v ch => trivial
  | addProgramChange pr t ch => rfl
  | addControlChange c v t ch => rfl

theorem applyEventJson_eventToJson (e : MidiEvent) (h : OpBuilt e) (s : Song) :
    applyEventJson s (eventToJson e) = s.add_event e := by
  cases e with
  | note t d ch p v => simp [applyEventJson, eventToJson, Song.add_note]
  | chord t d ch ns v => simp [applyEventJson, eventToJson, Song.add_chord]
  | rest t d ch =>
    obtain ⟨hd, hch⟩ := h
    subst hch
    simp [applyEventJson, eventToJson, Song.add_rest, max_eq_right hd]
  | programChange t d ch pr =>
    have hd : d = 0 := h
    subst hd
    simp [applyEventJson, eventToJson, Song.add_program_change]
  | controlChange t d ch c v =>
    have hd : d = 0 := h
    subst hd
    simp [applyEventJson, eventToJson, Song.add_control_change]

theorem foldl_applyEventJson_map (l : List MidiEvent) :
    ∀ s : Song, (∀ e ∈ l, OpBuilt e) →
      (l.map eventToJson).foldl applyEventJson s = addEvents s l := by
  induction l with
  | nil => intro s _; rfl
  | cons e rest ih =>
    intro s hl
    simp only [List.map_cons, List.foldl_cons, addEvents]
    rw [applyEventJson_eventToJson e (hl e (List.mem_cons_self e rest)) s]
    exact ih (s.add_event e) (fun e' he' => hl e' (List.mem_cons_of_mem e he'))

/-- Serialize → deserialize is the identity on songs built from the
public operations. -/
theorem from_json_to_json (n : String) (tp : ℤ) (ops : List SongOp) :
    Song.from_json ((applyOps (mkSong n tp) ops).to_json) = applyOps (mkSong n tp) ops := by
  rw [applyOps_eq_addEvents]
  have hn : (addEvents (mkSong n tp) (ops.map opEvent)).name = n := by
    rw [addEvents_name]; rfl
  have ht : (addEvents (mkSong n tp) (ops.map opEvent)).tempo = tp := by
    rw [addEvents_tempo]; rfl
  have hev : (addEvents (mkSong n tp) (ops.map opEvent)).events = ops.map opEvent := by
    rw [addEvents_events]; rfl
  simp only [Song.from_json, Song.to_json, hn, ht, hev]
  exact foldl_applyEventJson_map (ops.map opEvent) (mkSong n tp)
    (fun e he => by
      obtain ⟨op, _, rfl⟩ := List.mem_map.mp he
      exact opEvent_opBuilt op)

/-- **C3** (confirmed).  For any song built purely from the public
`add_*` operations, serialize → deserialize → serialize reproduces the
first serialization exactly (same name, tempo, derived duration, and
event list in the same order with the same fields); indeed deserialization
reproduces the song itself. -/
theorem c3_roundtrip_serialization (n : String) (tp : ℤ) (ops : List SongOp) :
    (Song.from_json ((applyOps (mkSong n tp) ops).to_json)).to_json =
      (applyOps (mkSong n tp) ops).to_json ∧
    Song.from_json ((applyOps (mkSong n tp) ops).to_json) = applyOps (mkSong n tp) ops := by
  have h := from_json_to_json n tp ops
  exact ⟨by rw [h], h⟩

/-- **C10** (confirmed).  `add_rest` stores the duration clamped to
`max(0, d)` (hence every rest appended by the public operations has a
non-negative duration), while `add_note` and `add_chord` store the given
duration unchanged, negative or not. -/
theorem c10_rest_clamp_note_unclamped :
    (∀ (s : Song) (t d : ℚ),
      (s.add_rest t d).events = s.events ++ [.rest t (max 0 d) 0] ∧ (0 : ℚ) ≤ max 0 d) ∧
    (∀ (n : String) (tp : ℤ) (ops : List SongOp) (t d : ℚ) (ch : ℤ),
      MidiEvent.rest t d ch ∈ (applyOps (mkSong n tp) ops).events → 0 ≤ d) ∧
    (∀ (s : Song) (p : ℤ) (t d : ℚ) (v ch : ℤ),
      (s.add_note p t d v ch).events = s.events ++ [.note t d ch p v]) ∧
    (∀ (s : Song) (ns : List ℤ) (t d : ℚ) (v ch : ℤ),
      (s.add_chord ns t d v ch).events = s.events ++ [.chord t d ch ns v]) := by
  refine ⟨fun s t d => ⟨rfl, le_max_left 0 d⟩, ?_, fun s p t d v ch => rfl,
    fun s ns t d v ch => rfl⟩
  intro n tp ops t d ch hmem
  have hev : (applyOps (mkSong n tp) ops).events = ops.map opEvent := by
    rw [applyOps_eq_addEvents, addEvents_events]; rfl
  rw [hev] at hmem
  obtain ⟨op, _, hop⟩ := List.mem_map.mp hmem
  have hb := opEvent_opBuilt op
  rw [hop] at hb
  exact hb.1

/-- Witness for `c10_rest_clamp_note_unclamped`: a rest added with
duration −1 is stored with duration 0, which is non-negative. -/
theorem c10_rest_clamp_note_unclamped_witness : (0 : ℚ) ≤ 0 := by
  have hmax : max (0 : ℚ) (-1) = 0 := by norm_num
  have hmem : MidiEvent.rest 0 0 0 ∈
      (applyOps (mkSong "w" 120) [SongOp.addRest 0 (-1)]).events := by
    simp only [applyOps, applyOp, Song.add_rest, Song.add_event, mkSong, List.foldl_cons,
      List.foldl_nil, List.nil_append, hmax, List.mem_singleton]
  exact c10_rest_clamp_note_unclamped.2.1 "w" 120 [SongOp.addRest 0 (-1)] 0 0 0 hmem

/-! ### Playback lemmas (C2) -/

theorem sendChordNotes_ok (cb : Msg → Bool) (hok : ∀ m, cb m = true) (v ch : ℤ) (endT : ℚ) :
    ∀ (ns : List ℤ) (active : List ((ℤ × ℤ) × ℚ)) (trace : List Msg),
      (sendChordNotes cb v ch endT ns active trace).2.2 = false := by
  intro ns
  induction ns with
  | nil => intro active trace; rfl
  | cons p rest ih =>
    intro active trace
    simp only [sendChordNotes, hok (Msg.note_on p v ch), if_true]
    exact ih _ _

theorem dispatchEvent_ok (cb : Msg → Bool) (hok : ∀ m, cb m = true) (e : MidiEvent)
    (active : List ((ℤ × ℤ) × ℚ)) (trace : List Msg) :
    (dispatchEvent cb e active trace).2.2 = false := by
  cases e with
  | note t d ch p v => simp [dispatchEvent, hok]
  | chord t d ch ns v => exact sendChordNotes_ok cb hok v ch (t + d) ns active trace
  | rest t d ch => rfl
  | programChange t d ch pr => simp [dispatchEvent, hok]
  | controlChange t d ch c v => simp [dispatchEvent, hok]

theorem playLoop_ok (cb : Msg → Bool) (hok : ∀ m, cb m = true) (stop : Bool) :
    ∀ (evs : List MidiEvent) (lastTime : ℚ) (active : List ((ℤ × ℤ) × ℚ)) (trace : List Msg),
      (playLoop cb stop evs lastTime active trace).2.2 = false := by
  intro evs
  induction evs with
  | nil => intro lastTime active trace; rfl
  | cons e rest ih =>
    intro lastTime active trace
    simp only [playLoop]
    split
    · rfl
    · simp only [dispatchEvent_ok cb hok, if_false, Bool.false_eq_true]
      split
      · rfl
      · exact ih _ _ _

theorem cleanupLoop_eq (cb : Msg → Bool) (hok : ∀ m, cb m = true) (elapsed : ℚ) :
    ∀ (active : List ((ℤ × ℤ) × ℚ)) (trace : List Msg),
      cleanupLoop cb elapsed active trace =
        (trace ++ (active.filter (fun a => decide (a.2 > elapsed))).map
          (fun a => Msg.note_off a.1.1 a.1.2), false) := by
  intro active
  induction active with
  | nil => intro trace; simp [cleanupLoop]
  | cons entry rest ih =>
    intro trace
    obtain ⟨⟨p, ch⟩, st⟩ := entry
    by_cases hst : st > elapsed
    · simp only [cleanupLoop, if_pos hst, hok (Msg.note_off p ch), if_true, ih,
        List.filter_cons, List.map_cons]
      simp [hst, List.append_assoc]
    · simp only [cleanupLoop, if_neg hst, ih, List.filter_cons]
      simp [hst]

/-- **C2** (theorem for the amended claim).  When the bound send
capability never fails, `play` performs the walk, then the all-notes-off
cleanup pass — exactly one `note_off` per `active_notes` entry whose
scheduled end is later than the elapsed wall time — and returns the Song
to the not-playing state.  But when the send capability raises during
dispatch, the exception propagates: the cleanup pass emits nothing and
the Song stays marked as playing, so it cannot be replayed. -/
theorem c2_cleanup_on_success_skipped_on_failure :
    (∀ (s : Song) (cb : Msg → Bool) (stop : Bool) (elapsed : ℚ),
      s.is_playing = false → (∀ m, cb m = true) →
        s.play (some cb) stop elapsed =
          ⟨(playLoop cb stop s.playEvents 0 [] []).1 ++
            (((playLoop cb stop s.playEvents 0 [] []).2.1.filter
              (fun a => decide (a.2 > elapsed))).map (fun a => Msg.note_off a.1.1 a.1.2)),
            false, false⟩) ∧
    (∀ (s : Song) (cb : Msg → Bool) (stop : Bool) (elapsed : ℚ),
      s.is_playing = false →
      (playLoop cb stop s.playEvents 0 [] []).2.2 = true →
        s.play (some cb) stop elapsed =
          ⟨(playLoop cb stop s.playEvents 0 [] []).1, true, true⟩) := by
  constructor
  · intro s cb stop elapsed hnp hok
    simp only [Song.play, hnp, Bool.false_eq_true, if_false,
      playLoop_ok cb hok stop, cleanupLoop_eq cb hok elapsed]
  · intro s cb stop elapsed hnp herr
    simp only [Song.play, hnp, Bool.false_eq_true, if_false, herr, if_true]

/-- Witness for `c2_cleanup_on_success_skipped_on_failure`: a one-note
song with an always-succeeding capability ends not playing, without an
error, with the note's cleanup `note_off` appended to the walk trace. -/
theorem c2_cleanup_on_success_skipped_on_failure_witness :
    ((mkSong "w" 120).add_note 60 0 5 64 0).play (some (fun _ => true)) false 0 =
      ⟨(playLoop (fun _ => true) false
          ((mkSong "w" 120).add_note 60 0 5 64 0).playEvents 0 [] []).1 ++
        (((playLoop (fun _ => true) false
            ((mkSong "w" 120).add_note 60 0 5 64 0).playEvents 0 [] []).2.1.filter
          (fun a => decide (a.2 > (0 : ℚ)))).map (fun a => Msg.note_off a.1.1 a.1.2)),
        false, false⟩ :=
  c2_cleanup_on_success_skipped_on_failure.1 ((mkSong "w" 120).add_note 60 0 5 64 0)
    (fun _ => true) false 0 rfl (fun _ => rfl)

/-! ### Name-collision machinery (C9)

`add_song` renames via the f-string `f"{name}_{i}"`; to reason about the
`while` loop we need that distinct indices give distinct suffixed names,
i.e. that `Nat.repr` is injective, which we prove via a structural
reformulation of `Nat.toDigitsCore`. -/

/-- MSB-first decimal digit characters of `n`, by structural recursion. -/
def toDigitsRec (n : ℕ) : List Char :=
  if h : n / 10 = 0 then [Nat.digitChar (n % 10)]
  else toDigitsRec (n / 10) ++ [Nat.digitChar (n % 10)]
decreasing_by
  exact Nat.div_lt_self (Nat.pos_of_ne_zero fun hz => h (by simp [hz])) (by norm_num)

theorem toDigitsCore_eq_toDigitsRec :
    ∀ (fuel n : ℕ) (ds : List Char), n < fuel →
      Nat.toDigitsCore 10 fuel n ds = toDigitsRec n ++ ds := by
  intro fuel
  induction fuel with
  | zero => intro n ds h; omega
  | succ fuel ih =>
    intro n ds h
    by_cases h0 : n / 10 = 0
    · simp only [Nat.toDigitsCore, if_pos h0]
      rw [toDigitsRec, dif_pos h0]
      rfl
    · have hpos : 0 < n := Nat.pos_of_ne_zero fun hz => h0 (by simp [hz])
      have hlt : n / 10 < n := Nat.div_lt_self hpos (by norm_num)
      have hrw : toDigitsRec n = toDigitsRec (n / 10) ++ [Nat.digitChar (n % 10)] := by
        conv_lhs => rw [toDigitsRec]
        rw [dif_neg h0]
      simp only [Nat.toDigitsCore, if_neg h0]
      rw [ih (n / 10) (Nat.digitChar (n % 10) :: ds) (by omega), hrw]
      simp [List.append_assoc]

theorem digitChar_sub_48 : ∀ d : ℕ, d < 10 → (Nat.digitChar d).toNat - 48 = d := by decide

theorem foldl_toDigitsRec :
    ∀ (n : ℕ) (acc : ℕ),
      (toDigitsRec n).foldl (fun a c => 10 * a + (c.toNat - 48)) acc =
        acc * 10 ^ (toDigitsRec n).length + n := by
  intro n
  induction n using Nat.strong_induction_on with
  | _ n ih =>
    intro acc
    by_cases h0 : n / 10 = 0
    · have hn : n < 10 := by omega
      rw [toDigitsRec, dif_pos h0]
      simp only [List.foldl_cons, List.foldl_nil, List.length_singleton]
      rw [digitChar_sub_48 (n % 10) (Nat.mod_lt n (by norm_num)), Nat.mod_eq_of_lt hn]
      ring
    · have hpos : 0 < n := Nat.pos_of_ne_zero fun hz => h0 (by simp [hz])
      have hlt : n / 10 < n := Nat.div_lt_self hpos (by norm_num)
      rw [toDigitsRec, dif_neg h0]
      rw [List.foldl_append, ih (n / 10) hlt acc]
      simp only [List.foldl_cons, List.foldl_nil, List.length_append, List.length_singleton]
      rw [digitChar_sub_48 (n % 10) (Nat.mod_lt n (by norm_num))]
      have hdm := Nat.div_add_mod n 10
      rw [pow_succ]
      ring_nf
      omega

theorem toDigitsRec_inj {a b : ℕ} (h : toDigitsRec a = toDigitsRec b) : a = b := by
  have ha := foldl_toDigitsRec a 0
  have hb := foldl_toDigitsRec b 0
  rw [h] at ha
  rw [ha] at hb
  omega

theorem nat_repr_inj {a b : ℕ} (h : Nat.repr a = Nat.repr b) : a = b := by
  apply toDigitsRec_inj
  have h' : (Nat.toDigits 10 a).asString = (Nat.toDigits 10 b).asString := h
  unfold Nat.toDigits at h'
  rw [toDigitsCore_eq_toDigitsRec (a + 1) a [] (Nat.lt_succ_self a),
    toDigitsCore_eq_toDigitsRec (b + 1) b [] (Nat.lt_succ_self b)] at h'
  have hdata := congrArg String.data h'
  simpa [List.asString] using hdata

theorem suffixed_inj (name : String) : Function.Injective (suffixed name) := by
  intro i j h
  apply nat_repr_inj
  have hdata := congrArg String.data h
  simp only [suffixed, String.data_append, List.append_assoc] at hdata
  apply String.ext
  exact List.append_cancel_left (List.append_cancel_left hdata)

theorem exists_fresh (keys : List String) (name : String) :
    ∃ j, 1 ≤ j ∧ j < keys.length + 2 ∧ suffixed name j ∉ keys := by
  by_contra hcon
  push_neg at hcon
  have hsub : ((List.range' 1 (keys.length + 1)).map (suffixed name)) ⊆ keys := by
    intro x hx
    obtain ⟨j, hj, rfl⟩ := List.mem_map.mp hx
    obtain ⟨k, hk, rfl⟩ := List.mem_range'.mp hj
    exact hcon _ (by omega) (by omega)
  have hnd : ((List.range' 1 (keys.length + 1)).map (suffixed name)).Nodup :=
    (List.nodup_range' 1 (keys.length + 1)).map (suffixed_inj name)
  have hsp := List.subperm_of_subset hnd hsub
  have hlen := hsp.length_le
  simp at hlen

theorem freshIndexAux_spec (keys : List String) (name : String) :
    ∀ (fuel i : ℕ), (∃ j, i ≤ j ∧ j < i + fuel ∧ suffixed name j ∉ keys) →
      i ≤ freshIndexAux keys name fuel i ∧
      suffixed name (freshIndexAux keys name fuel i) ∉ keys ∧
      ∀ j, i ≤ j → j < freshIndexAux keys name fuel i → suffixed name j ∈ keys := by
  intro fuel
  induction fuel with
  | zero =>
    rintro i ⟨j, hj1, hj2, _⟩
    omega
  | succ fuel ih =>
    rintro i ⟨j, hj1, hj2, hj3⟩
    by_cases hmem : suffixed name i ∈ keys
    · have hji : j ≠ i := fun he => hj3 (he ▸ hmem)
      obtain ⟨h1, h2, h3⟩ := ih (i + 1) ⟨j, by omega, by omega, hj3⟩
      simp only [freshIndexAux, if_pos hmem]
      refine ⟨by omega, h2, ?_⟩
      intro k hk1 hk2
      rcases eq_or_lt_of_le hk1 with he | hlt
      · rwa [he] at hmem
      · exact h3 k (by omega) hk2
    · simp only [freshIndexAux, if_neg hmem]
      exact ⟨le_refl i, hmem, fun k hk1 hk2 => absurd (lt_of_le_of_lt hk1 hk2) (lt_irrefl i)⟩

theorem freshIndex_spec (keys : List String) (name : String) :
    1 ≤ freshIndex keys name ∧ suffixed name (freshIndex keys name) ∉ keys ∧
      ∀ j, 1 ≤ j → j < freshIndex keys name → suffixed name j ∈ keys := by
  obtain ⟨j, h1, h2, h3⟩ := exists_fresh keys name
  exact freshIndexAux_spec keys name (keys.length + 1) 1 ⟨j, h1, by omega, h3⟩

/-- **C9** (confirmed).  `add_song` preserves the manager's naming
invariant: assuming all stored keys are distinct and every stored song's
name equals its key, after `add_song` this still holds; on a collision the
song is stored under `name_i` for the smallest `i ≥ 1` whose suffixed name
is unused (all smaller indices are in use), and without a collision the
song is stored unchanged under its own name. -/
theorem c9_add_song_unique_names (m : SongManager) (s : Song)
    (h : m.keys.Nodup ∧ ∀ p ∈ m.songs, p.2.name = p.1) :
    ((m.add_song s).keys.Nodup ∧ ∀ p ∈ (m.add_song s).songs, p.2.name = p.1) ∧
    (s.name ∈ m.keys →
      ∃ i, 1 ≤ i ∧
        (m.add_song s).songs =
          m.songs ++ [(suffixed s.name i, { s with name := suffixed s.name i })] ∧
        suffixed s.name i ∉ m.keys ∧
        ∀ j, 1 ≤ j → j < i → suffixed s.name j ∈ m.keys) ∧
    (s.name ∉ m.keys → (m.add_song s).songs = m.songs ++ [(s.name, s)]) := by
  obtain ⟨hnd, hnm⟩ := h
  by_cases hmem : s.name ∈ m.keys
  · obtain ⟨h1, h2, h3⟩ := freshIndex_spec m.keys s.name
    have hadd : (m.add_song s).songs =
        m.songs ++ [(suffixed s.name (freshIndex m.keys s.name),
          { s with name := suffixed s.name (freshIndex m.keys s.name) })] := by
      simp only [SongManager.add_song, if_pos hmem]
    refine ⟨⟨?_, ?_⟩, fun _ => ⟨freshIndex m.keys s.name, h1, hadd, h2, h3⟩,
      fun hn => absurd hmem hn⟩
    · have hk : (m.add_song s).keys =
          m.keys ++ [suffixed s.name (freshIndex m.keys s.name)] := by
        simp [SongManager.keys, hadd]
      rw [hk, List.nodup_append]
      refine ⟨hnd, List.nodup_singleton _, ?_⟩
      intro a ha hb
      rw [List.mem_singleton] at hb
      subst hb
      exact h2 ha
    · intro p hp
      rw [hadd] at hp
      rcases List.mem_append.mp hp with hold | hnew
      · exact hnm p hold
      · rw [List.mem_singleton] at hnew
        subst hnew
        rfl
  · have hadd : (m.add_song s).songs = m.songs ++ [(s.name, s)] := by
      simp only [SongManager.add_song, if_neg hmem]
    refine ⟨⟨?_, ?_⟩, fun hn => absurd hn hmem, fun _ => hadd⟩
    · have hk : (m.add_song s).keys = m.keys ++ [s.name] := by
        simp [SongManager.keys, hadd]
      rw [hk, List.nodup_append]
      refine ⟨hnd, List.nodup_singleton _, ?_⟩
      intro a ha hb
      rw [List.mem_singleton] at hb
      subst hb
      exact hmem ha
    · intro p hp
      rw [hadd] at hp
      rcases List.mem_append.mp hp with hold | hnew
      · exact hnm p hold
      · rw [List.mem_singleton] at hnew
        subst hnew
        rfl

/-- Witness for `c9_add_song_unique_names`: adding a second song named
`"a"` to a manager already holding key `"a"` keeps the keys distinct. -/
theorem c9_add_song_unique_names_witness :
    ((SongManager.mk [("a", mkSong "a" 120)]).add_song (mkSong "a" 100)).keys.Nodup :=
  (c9_add_song_unique_names ⟨[("a", mkSong "a" 120)]⟩ (mkSong "a" 100)
    ⟨by decide, by decide⟩).1.1
